import Mathlib

/-!
Verification of the smallsh command interpreter (src/main.c).

The C program is embedded shallowly: each C function that the properties
below depend on is translated into an executable Lean definition over
explicit state. Operating-system effects (fork, open, dup2, waitpid,
kill, exit) are represented by explicit parameters and result values:
an open attempt is an oracle String → Bool, a wait result is a value of
an outcome type, and printed lines are returned as lists of strings or
structured report events.
-/

namespace Smallsh

/-! ### Variable expansion (expandVariable, src/main.c lines 377-429) -/

/-- Decimal text of a process identifier, as produced by sprintf with
the d conversion specifier in expandVariable. -/
def pidDigits (pid : Nat) : List Char :=
  (toString pid).toList

/-- Replacement loop of expandVariable (lines 411-425): scanning left to
right, a position where the marker starts (strstr(input, "$$") == input,
i.e. the next two characters are both dollar signs) emits the pid text
and skips two input characters; any other position copies one character. -/
def expandVariable (pid : List Char) : List Char → List Char
  | [] => []
  | [c] => [c]
  | c :: d :: rest =>
    if c = '$' ∧ d = '$' then pid ++ expandVariable pid rest
    else c :: expandVariable pid (d :: rest)

/-- Counting loop of expandVariable (lines 397-405): the number of
non-overlapping occurrences of the marker, scanned left to right. -/
def countVar : List Char → Nat
  | [] => 0
  | [_] => 0
  | c :: d :: rest =>
    if c = '$' ∧ d = '$' then countVar rest + 1
    else countVar (d :: rest)

/-- Whether the two-dollar marker occurs anywhere in the string
(some position starts the marker). -/
def hasMarker : List Char → Bool
  | [] => false
  | [_] => false
  | c :: d :: rest =>
    if c = '$' ∧ d = '$' then true
    else hasMarker (d :: rest)

/-- Modelled from the spec: the chunks of the input between consecutive
non-overlapping occurrences of the marker, scanned left to right. Used
to state what "every occurrence is replaced" means independently of the
replacement loop. -/
def splitMarker : List Char → List (List Char)
  | [] => [[]]
  | [c] => [[c]]
  | c :: d :: rest =>
    if c = '$' ∧ d = '$' then [] :: splitMarker rest
    else
      match splitMarker (d :: rest) with
      | [] => [[c]]
      | h :: t => (c :: h) :: t

/-- Modelled from the spec: join chunks, inserting the separator between
consecutive chunks. -/
def joinWith (sep : List Char) : List (List Char) → List Char
  | [] => []
  | [a] => a
  | a :: b :: t => a ++ sep ++ joinWith sep (b :: t)

/-- Induction principle following the two-character scan shared by the
loops of expandVariable. -/
theorem marker_induction (motive : List Char → Prop) (h1 : motive [])
    (h2 : ∀ c, motive [c])
    (h3 : ∀ c d rest, (c = '$' ∧ d = '$') → motive rest → motive (c :: d :: rest))
    (h4 : ∀ c d rest, ¬(c = '$' ∧ d = '$') → motive (d :: rest) → motive (c :: d :: rest)) :
    ∀ s, motive s :=
  expandVariable.induct [] motive h1 h2 h3 h4

theorem splitMarker_ne_nil (s : List Char) : splitMarker s ≠ [] := by
  induction s using marker_induction with
  | h1 => simp [splitMarker]
  | h2 c => simp [splitMarker]
  | h3 c d rest h ih => simp [splitMarker, h]
  | h4 c d rest h ih =>
    simp only [splitMarker, if_neg h]
    cases hs : splitMarker (d :: rest) with
    | nil => simp
    | cons a t => simp

theorem expandVariable_eq_joinWith (pid : List Char) (s : List Char) :
    expandVariable pid s = joinWith pid (splitMarker s) := by
  induction s using marker_induction with
  | h1 => simp [expandVariable, splitMarker, joinWith]
  | h2 c => simp [expandVariable, splitMarker, joinWith]
  | h3 c d rest h ih =>
    have hne := splitMarker_ne_nil rest
    cases hs : splitMarker rest with
    | nil => exact absurd hs hne
    | cons a t =>
      rw [hs] at ih
      simp [expandVariable, splitMarker, if_pos h, hs, joinWith, ih]
  | h4 c d rest h ih =>
    have hne := splitMarker_ne_nil (d :: rest)
    cases hs : splitMarker (d :: rest) with
    | nil => exact absurd hs hne
    | cons a t =>
      rw [hs] at ih
      simp only [expandVariable, splitMarker, if_neg h, hs, ih]
      cases t with
      | nil => simp [joinWith]
      | cons b t2 => simp [joinWith]

theorem splitMarker_length (s : List Char) :
    (splitMarker s).length = countVar s + 1 := by
  induction s using marker_induction with
  | h1 => simp [splitMarker, countVar]
  | h2 c => simp [splitMarker, countVar]
  | h3 c d rest h ih => simp [splitMarker, countVar, if_pos h, ih]
  | h4 c d rest h ih =>
    have hne := splitMarker_ne_nil (d :: rest)
    cases hs : splitMarker (d :: rest) with
    | nil => exact absurd hs hne
    | cons a t =>
      simp only [splitMarker, countVar, if_neg h]
      simp only [hs] at ih ⊢
      simpa using ih

theorem expandVariable_length (pid : List Char) (s : List Char) :
    ((expandVariable pid s).length : ℤ)
      = (s.length : ℤ) + (countVar s : ℤ) * ((pid.length : ℤ) - 2) := by
  induction s using marker_induction with
  | h1 => simp [expandVariable, countVar]
  | h2 c => simp [expandVariable, countVar]
  | h3 c d rest h ih =>
    simp only [expandVariable, countVar, if_pos h, List.length_append,
      List.length_cons]
    push_cast
    rw [ih]
    ring
  | h4 c d rest h ih =>
    simp only [expandVariable, countVar, if_neg h, List.length_cons] at ih ⊢
    push_cast at ih ⊢
    rw [ih]
    ring

theorem hasMarker_false_cases (c d : Char) (rest : List Char)
    (h : hasMarker (c :: d :: rest) = false) :
    ¬(c = '$' ∧ d = '$') ∧ hasMarker (d :: rest) = false := by
  by_cases hm : c = '$' ∧ d = '$'
  · simp [hasMarker, if_pos hm] at h
  · constructor
    · exact hm
    · simpa [hasMarker, if_neg hm] using h

theorem hasMarker_cons (c : Char) (t : List Char) (h : hasMarker t = true) :
    hasMarker (c :: t) = true := by
  cases t with
  | nil => simp [hasMarker] at h
  | cons y t2 =>
    by_cases hm : c = '$' ∧ y = '$'
    · simp [hasMarker, if_pos hm]
    · simpa [hasMarker, if_neg hm] using h

/-- Occurrence of the marker as a substring: hasMarker is true exactly
when the string splits as a part, the two-dollar marker, and a rest. -/
theorem hasMarker_iff_occurrence (s : List Char) :
    hasMarker s = true ↔ ∃ a b, s = a ++ '$' :: '$' :: b := by
  constructor
  · induction s using marker_induction with
    | h1 => intro h; simp [hasMarker] at h
    | h2 c => intro h; simp [hasMarker] at h
    | h3 c d rest h ih =>
      intro _
      exact ⟨[], rest, by simp [h.1, h.2]⟩
    | h4 c d rest h ih =>
      intro hm
      rw [show hasMarker (c :: d :: rest) = hasMarker (d :: rest) by
        simp [hasMarker, if_neg h]] at hm
      obtain ⟨a, b, hab⟩ := ih hm
      exact ⟨c :: a, b, by simp [hab]⟩
  · rintro ⟨a, b, rfl⟩
    induction a with
    | nil => simp [hasMarker]
    | cons x a2 ih => exact hasMarker_cons x _ ih

theorem expandVariable_id_of_no_marker (pid : List Char) (s : List Char)
    (h : hasMarker s = false) : expandVariable pid s = s := by
  induction s using marker_induction with
  | h1 => simp [expandVariable]
  | h2 c => simp [expandVariable]
  | h3 c d rest hm ih => simp [hasMarker, if_pos hm] at h
  | h4 c d rest hm ih =>
    obtain ⟨_, h2⟩ := hasMarker_false_cases c d rest h
    simp [expandVariable, if_neg hm, ih h2]

/-- Claim C7: expandVariable returns the input with every non-overlapping
occurrence of the two-character marker, scanned left to right, replaced
by the decimal text of the process identifier (output = the chunks
between markers joined with the pid text, and the number of chunks is
the occurrence count plus one), and the output length equals the input
length plus occurrences times (pid digits minus 2). -/
theorem expandVariable_replaces_markers (pidN : Nat) (s : List Char) :
    expandVariable (pidDigits pidN) s = joinWith (pidDigits pidN) (splitMarker s)
    ∧ (splitMarker s).length = countVar s + 1
    ∧ ((expandVariable (pidDigits pidN) s).length : ℤ)
        = (s.length : ℤ) + (countVar s : ℤ) * (((pidDigits pidN).length : ℤ) - 2) :=
  ⟨expandVariable_eq_joinWith _ s, splitMarker_length s, expandVariable_length _ s⟩

/-- Claim C8: on an input containing no occurrence of the marker,
expandVariable is the identity copy, and hence expansion is idempotent
on such input. -/
theorem expandVariable_identity_no_marker (pid : List Char) (s : List Char)
    (h : hasMarker s = false) :
    expandVariable pid s = s
    ∧ expandVariable pid (expandVariable pid s) = expandVariable pid s := by
  have h1 := expandVariable_id_of_no_marker pid s h
  exact ⟨h1, by rw [h1]; exact h1⟩

theorem expandVariable_identity_no_marker_witness :
    hasMarker ['e', 'c', 'h', 'o'] = false
    ∧ expandVariable ['4', '2'] ['e', 'c', 'h', 'o'] = ['e', 'c', 'h', 'o'] :=
  ⟨by decide,
    (expandVariable_identity_no_marker ['4', '2'] ['e', 'c', 'h', 'o'] (by decide)).1⟩

/-! ### Line parsing (parseInput, src/main.c lines 298-367) -/

/-- Parsed command line (struct commandStruct, lines 24-30). The args
field holds argv entries in order, args[0] equal to the command name;
the terminating null-pointer sentinel of the C array is implicit in the
list representation. Redirect fields are options, none meaning the C
field was never assigned. -/
structure Command where
  command : String
  args : List String
  iRedirect : Option String
  oRedirect : Option String
  background : Bool
deriving DecidableEq

/-- Delimiters of strtok_r in parseInput: space and newline. -/
def isDelim (c : Char) : Bool := c = ' ' || c = '\n'

/-- Token stream produced by repeated strtok_r calls: maximal nonempty
runs between delimiters. -/
def tokenize (input : String) : List String :=
  (input.split (fun c => isDelim c)).filter (fun t => t ≠ "")

/-- Argument-accumulation loop (lines 328-337): tokens are collected
until one equal to one of the three special tokens, or the end of the
stream, is reached. Returns the collected arguments and the remaining
tokens. -/
def takeArgs : List String → List String × List String
  | [] => ([], [])
  | t :: rest =>
    if t = "<" ∨ t = ">" ∨ t = "&" then ([], t :: rest)
    else
      let p := takeArgs rest
      (t :: p.1, p.2)

/-- Second parsing pass (do-while loop, lines 343-364): consumes the
remaining tokens in order. A less-than token takes the following token
as input redirect; a greater-than token takes the following token as
output redirect; an ampersand token sets the background flag when
foreground-only mode is off; any other token is skipped. When a
redirect token is last, the C code dereferences the null pointer
returned by strtok_r (strlen(NULL)); that is modelled as none. -/
def phase2 (fg : Bool) : List String → Option String → Option String → Bool →
    Option (Option String × Option String × Bool)
  | [], iR, oR, bg => some (iR, oR, bg)
  | t :: rest, iR, oR, bg =>
    if t = "<" then
      match rest with
      | [] => none
      | f :: r2 => phase2 fg r2 (some f) oR bg
    else if t = ">" then
      match rest with
      | [] => none
      | f :: r2 => phase2 fg r2 iR (some f) bg
    else if t = "&" ∧ fg = false then
      phase2 fg rest iR oR true
    else
      phase2 fg rest iR oR bg

/-- Result of parseInput: noCommand models the NULL return for a blank
line (line 311), crash models the undefined strlen(NULL) dereference
when a redirect token is last, ok carries the populated struct. -/
inductive ParseResult where
  | noCommand
  | crash
  | ok (c : Command)
deriving DecidableEq

/-- parseInput (lines 298-367) over the token stream: first token is the
command name (also args[0]), then the argument loop, then the second
pass starting from the struct initialised with background false and
unset redirects. -/
def parseInput (tokens : List String) (fg : Bool) : ParseResult :=
  match tokens with
  | [] => ParseResult.noCommand
  | cmd :: rest =>
    let a := takeArgs rest
    match phase2 fg a.2 none none false with
    | none => ParseResult.crash
    | some r =>
      ParseResult.ok
        { command := cmd, args := cmd :: a.1, iRedirect := r.1,
          oRedirect := r.2.1, background := r.2.2 }

/-- Whether the second parsing pass examines an ampersand token: true
when an ampersand is reached at a position where it is not consumed as
a redirect target. -/
def ampSeen : List String → Bool
  | [] => false
  | t :: rest =>
    if t = "<" then
      match rest with
      | [] => false
      | _ :: r2 => ampSeen r2
    else if t = ">" then
      match rest with
      | [] => false
      | _ :: r2 => ampSeen r2
    else if t = "&" then true
    else ampSeen rest

theorem ampSeen_amp (rest : List String) : ampSeen ("&" :: rest) = true := by
  rw [ampSeen.eq_def]
  simp

theorem ampSeen_skip (t : String) (rest : List String) (h1 : ¬t = "<")
    (h2 : ¬t = ">") (h4 : ¬t = "&") : ampSeen (t :: rest) = ampSeen rest := by
  rw [ampSeen.eq_def]
  simp only [if_neg h1, if_neg h2, if_neg h4]

theorem phase2_background (fg : Bool) (l : List String) (iR oR : Option String)
    (bg : Bool) :
    ∀ r, phase2 fg l iR oR bg = some r →
      r.2.2 = (bg || (!fg && ampSeen l)) := by
  induction l, iR, oR, bg using phase2.induct fg with
  | case1 iR oR bg =>
    intro r h
    simp only [phase2] at h
    cases h
    simp [ampSeen]
  | case2 iR oR bg =>
    intro r h
    simp [phase2] at h
  | case3 iR oR bg f r2 ih =>
    intro r h
    simp only [phase2, reduceIte] at h
    simpa [ampSeen] using ih r h
  | case4 iR oR bg hne =>
    intro r h
    simp [phase2] at h
  | case5 iR oR bg f r2 hne ih =>
    intro r h
    simp only [phase2, reduceIte] at h
    simpa [ampSeen] using ih r h
  | case6 t rest iR oR bg h1 h2 h3 ih =>
    intro r h
    rw [phase2.eq_def] at h
    simp only [if_neg h1, if_neg h2, if_pos h3] at h
    simp [h3.1, h3.2, ih r h, ampSeen_amp]
  | case7 t rest iR oR bg h1 h2 h3 ih =>
    intro r h
    rw [phase2.eq_def] at h
    simp only [if_neg h1, if_neg h2, if_neg h3] at h
    have hr := ih r h
    by_cases h4 : t = "&"
    · have hfg : fg = true := by
        cases hf : fg
        · exact absurd ⟨h4, hf⟩ h3
        · rfl
      simp [hfg, hr]
    · simp [ampSeen_skip t rest h1 h2 h4, hr]

theorem parseInput_background_eq (cmd : String) (rest : List String) (fg : Bool)
    (c : Command) (h : parseInput (cmd :: rest) fg = ParseResult.ok c) :
    c.background = (!fg && ampSeen (takeArgs rest).2) := by
  simp only [parseInput] at h
  cases hp : phase2 fg (takeArgs rest).2 none none false with
  | none => rw [hp] at h; cases h
  | some r =>
    rw [hp] at h
    cases h
    simpa using phase2_background fg (takeArgs rest).2 none none false r hp

/-- Claim C4 is false as stated: on the token line ls & x, whose final
token is not the ampersand marker, parseInput still produces a command
with the background flag set (foreground-only mode off). -/
theorem background_set_by_nonfinal_amp :
    parseInput ["ls", "&", "x"] false
      = ParseResult.ok
          { command := "ls", args := ["ls"], iRedirect := none,
            oRedirect := none, background := true }
    ∧ ["ls", "&", "x"].getLast? = some "x" ∧ ("x" : String) ≠ "&" := by
  refine ⟨by decide, by decide, by decide⟩

/-- Claim C4 (amended): the parsed command's background flag is true
exactly when foreground-only mode is not active and the second parsing
pass examines an ampersand token, in any position where it is not
consumed as a redirect target; the ampersand need not be the line's
final token. -/
theorem background_iff_amp_examined (cmd : String) (rest : List String)
    (fg : Bool) (c : Command)
    (h : parseInput (cmd :: rest) fg = ParseResult.ok c) :
    c.background = (!fg && ampSeen (takeArgs rest).2) :=
  parseInput_background_eq cmd rest fg c h

theorem background_iff_amp_examined_witness :
    (({ command := "ls", args := ["ls"], iRedirect := none, oRedirect := none,
        background := true } : Command)).background
      = (!false && ampSeen (takeArgs ["&", "x"]).2) :=
  background_iff_amp_examined "ls" ["&", "x"] false
    { command := "ls", args := ["ls"], iRedirect := none, oRedirect := none,
      background := true } (by decide)

/-- Claim C5: a command parsed while the foreground-only flag is true
never has its background flag set, even if the raw line ends in the
ampersand marker. -/
theorem fgOnly_forces_foreground (tokens : List String) (c : Command)
    (h : parseInput tokens true = ParseResult.ok c) :
    c.background = false := by
  cases tokens with
  | nil => simp [parseInput] at h
  | cons cmd rest =>
    simpa using parseInput_background_eq cmd rest true c h

theorem fgOnly_forces_foreground_witness :
    (({ command := "sleep", args := ["sleep", "5"], iRedirect := none,
        oRedirect := none, background := false } : Command)).background = false :=
  fgOnly_forces_foreground ["sleep", "5", "&"]
    { command := "sleep", args := ["sleep", "5"], iRedirect := none,
      oRedirect := none, background := false } (by decide)

/-! ### Process launch, child side (executeCommand, src/main.c lines 159-244) -/

/-- Path passed to open: the specified redirect target, or the null
device when a background command has no explicit redirect (lines
192-196 and 217-221). -/
def redirPath : Option String → String
  | some p => p
  | none => "/dev/null"

/-- Text that printf with the s conversion produces for the redirect
field in the diagnostic (lines 200 and 225): the target when one was
assigned; glibc renders a null pointer argument as the parenthesised
word null. -/
def optName : Option String → String
  | some p => p
  | none => "(null)"

/-- Result of an open call: a valid descriptor number when the attempt
succeeds, minus one when it fails (the value 3 stands for any valid
descriptor). -/
def openFD (ok : Bool) : Int := if ok then 3 else -1

/-- Whether dup2 of the given descriptor onto a standard stream
succeeds: it fails (EBADF) exactly when the descriptor is not a valid
open descriptor, i.e. when open returned minus one; dup2 of a valid
descriptor onto descriptor 0 or 1 succeeds. -/
def dup2Ok (fd : Int) : Bool := if fd = -1 then false else true

/-- Outcome of the child branch: either the child reaches the execvp
call with the given command and argument vector, or it exits first with
the given code. -/
inductive ChildResult where
  | execAttempt (cmd : String) (args : List String)
  | exited (code : Nat)
deriving DecidableEq

/-- Output-redirection block of the child (lines 214-236) followed by
the execvp call (line 239), given the diagnostics already printed by
the input block. -/
def outPhase (openW : String → Bool) (c : Command) (msgs : List String) :
    List String × ChildResult :=
  if c.background = true ∨ c.oRedirect ≠ none then
    let outputFD := openFD (openW (redirPath c.oRedirect))
    let m2 := if outputFD = -1
      then msgs ++ ["cannot open " ++ optName c.oRedirect ++ " for output"]
      else msgs
    if dup2Ok outputFD = false then (m2, ChildResult.exited 1)
    else (m2, ChildResult.execAttempt c.command c.args)
  else (msgs, ChildResult.execAttempt c.command c.args)

/-- Child branch of executeCommand (lines 174-244): input redirection
block (lines 189-211), then output redirection block, then execvp.
Returns the diagnostics printed to standard output and the child's
outcome. -/
def executeCommandChild (openR openW : String → Bool) (c : Command) :
    List String × ChildResult :=
  if c.background = true ∨ c.iRedirect ≠ none then
    let inputFD := openFD (openR (redirPath c.iRedirect))
    let m1 := if inputFD = -1
      then ["cannot open " ++ optName c.iRedirect ++ " for input"]
      else []
    if dup2Ok inputFD = false then (m1, ChildResult.exited 1)
    else outPhase openW c m1
  else outPhase openW c []

/-- Claim C1 is false as stated: with an output redirect target that
cannot be opened (the scenario ls with output redirected to a path in a
missing directory), the child prints the diagnostic naming the target
but then exits with code 1 — it does not proceed to attempt the
command, because dup2 of the invalid descriptor fails. -/
theorem redirect_open_failure_child_exits :
    executeCommandChild (fun _ => true) (fun _ => false)
        { command := "ls", args := ["ls"], iRedirect := none,
          oRedirect := some "/no/such/dir/out.txt", background := false }
      = (["cannot open /no/such/dir/out.txt for output"], ChildResult.exited 1) := by
  decide

/-- Claim C1 (amended): when a redirect target cannot be opened, a
diagnostic naming the target is printed to standard output and the open
failure itself is not what terminates the child; but the subsequent
duplication of the invalid descriptor onto the standard stream fails,
which is fatal, so the child exits with code 1 without attempting the
command. The command is attempted (execvp reached, no diagnostic)
exactly when every required open succeeds. -/
theorem redirect_open_failure_diagnostic_then_dup2_fatal
    (openR openW : String → Bool) (c : Command) :
    (∀ p, c.iRedirect = some p → openR p = false →
      executeCommandChild openR openW c
        = (["cannot open " ++ p ++ " for input"], ChildResult.exited 1))
    ∧ (∀ p, c.oRedirect = some p → openW p = false →
        c.background = false → c.iRedirect = none →
        executeCommandChild openR openW c
          = (["cannot open " ++ p ++ " for output"], ChildResult.exited 1))
    ∧ (openR (redirPath c.iRedirect) = true →
        openW (redirPath c.oRedirect) = true →
        executeCommandChild openR openW c
          = ([], ChildResult.execAttempt c.command c.args)) := by
  refine ⟨?_, ?_, ?_⟩
  · intro p hi hR
    simp [executeCommandChild, hi, redirPath, optName, openFD, hR, dup2Ok]
  · intro p ho hW hbg hi
    simp [executeCommandChild, outPhase, hi, ho, hbg, redirPath, optName,
      openFD, hW, dup2Ok]
  · intro hR hW
    by_cases h1 : c.background = true ∨ c.iRedirect ≠ none
    · by_cases h2 : c.background = true ∨ c.oRedirect ≠ none
      · simp [executeCommandChild, outPhase, h1, h2, hR, hW, openFD, dup2Ok]
      · simp [executeCommandChild, outPhase, h1, h2, hR, openFD, dup2Ok]
    · by_cases h2 : c.background = true ∨ c.oRedirect ≠ none
      · simp [executeCommandChild, outPhase, h1, h2, hW, openFD, dup2Ok]
      · simp [executeCommandChild, outPhase, h1, h2]

theorem redirect_open_failure_witness :
    executeCommandChild (fun _ => false) (fun _ => true)
        { command := "sort", args := ["sort"], iRedirect := some "missing.txt",
          oRedirect := none, background := false }
      = (["cannot open missing.txt for input"], ChildResult.exited 1) :=
  (redirect_open_failure_diagnostic_then_dup2_fatal (fun _ => false)
      (fun _ => true)
      { command := "sort", args := ["sort"], iRedirect := some "missing.txt",
        oRedirect := none, background := false }).1
    "missing.txt" rfl rfl

/-! ### Process launch, parent side (executeCommand, src/main.c lines 245-284) -/

/-- Outcome of a wait call on a child, as examined through WIFEXITED
and WIFSIGNALED: normal termination with an exit code, or termination
by a signal. -/
inductive WaitOutcome where
  | exitedW (code : Nat)
  | signaled (sig : Nat)
deriving DecidableEq

/-- Shell Status: text and code of the most recent foreground process
(statusText and statusCode in main). -/
structure ShellStatus where
  text : String
  code : Int
deriving DecidableEq

/-- Line printed by the status built-in (line 523) and by the
signal-termination report (line 280): text, space, code. -/
def statusLine (s : ShellStatus) : String := s.text ++ " " ++ toString s.code

/-- Foreground branch of the parent (lines 268-283): after the blocking
wait, normal termination stores the exit-value status and prints
nothing; termination by a signal stores the signal status with code 2
and prints that status line immediately. Returns the new Shell Status
and the lines printed. -/
def executeCommandFgWait (w : WaitOutcome) : ShellStatus × List String :=
  match w with
  | WaitOutcome.exitedW code => ({ text := "exit value", code := code }, [])
  | WaitOutcome.signaled _ =>
    ({ text := "terminated by signal", code := 2 },
      [statusLine { text := "terminated by signal", code := 2 }])

/-- Claim C6: a foreground child terminating normally with some code
sets Shell Status to exit value with that code and prints nothing at
that moment; a foreground child terminated by any signal sets Shell
Status to terminated-by-signal with code 2 and prints that status line
immediately. -/
theorem fg_wait_status_update :
    (∀ code : Nat,
      executeCommandFgWait (WaitOutcome.exitedW code)
        = ({ text := "exit value", code := code }, []))
    ∧ (∀ sig : Nat,
      executeCommandFgWait (WaitOutcome.signaled sig)
        = ({ text := "terminated by signal", code := 2 },
            ["terminated by signal 2"])) := by
  constructor
  · intro code
    rfl
  · intro sig
    have h2 : statusLine ({ text := "terminated by signal", code := 2 } : ShellStatus)
        = "terminated by signal 2" := by decide
    simp only [executeCommandFgWait, h2]

/-- Insertion loop of the background branch (lines 259-265): place the
child pid into the first slot holding zero, scanning at most the given
number of slots; if no scanned slot is zero, the table is unchanged. -/
def placeFirstZero : Nat → List Int → Int → List Int
  | 0, l, _ => l
  | _ + 1, [], _ => []
  | n + 1, x :: xs, p => if x = 0 then p :: xs else x :: placeFirstZero n xs p

/-- Background registration in the parent (lines 254-265): the loop
bound is 20 although the array in main has 256 entries (line 488). -/
def registerBg (bgPids : List Int) (childPid : Int) : List Int :=
  placeFirstZero 20 bgPids childPid

theorem placeFirstZero_full (n : Nat) (l : List Int) (p : Int)
    (h : ∀ j, j < n → l.getD j 0 ≠ 0) : placeFirstZero n l p = l := by
  induction n generalizing l with
  | zero => rfl
  | succ n ih =>
    cases l with
    | nil => rfl
    | cons x xs =>
      have hx : x ≠ 0 := by
        have := h 0 (Nat.succ_pos n)
        simpa using this
      simp only [placeFirstZero, if_neg hx, List.cons.injEq]
      refine ⟨trivial, ih xs ?_⟩
      intro j hj
      have := h (j + 1) (Nat.succ_lt_succ hj)
      simpa using this

theorem placeFirstZero_insert (n : Nat) (l : List Int) (p : Int) (j : Nat)
    (hj : j < n) (hz : l.getD j 0 = 0) (hmin : ∀ k, k < j → l.getD k 0 ≠ 0) :
    placeFirstZero n l p = l.set j p := by
  induction n generalizing l j with
  | zero => exact absurd hj (Nat.not_lt_zero j)
  | succ n ih =>
    cases l with
    | nil => simp [placeFirstZero]
    | cons x xs =>
      cases j with
      | zero =>
        have hx : x = 0 := by simpa using hz
        simp [placeFirstZero, hx]
      | succ j =>
        have hx : x ≠ 0 := by
          have := hmin 0 (Nat.succ_pos j)
          simpa using this
        have hj2 : j < n := Nat.lt_of_succ_lt_succ hj
        have hz2 : xs.getD j 0 = 0 := by simpa using hz
        have hmin2 : ∀ k, k < j → xs.getD k 0 ≠ 0 := by
          intro k hk
          have := hmin (k + 1) (Nat.succ_lt_succ hk)
          simpa using this
        simp only [placeFirstZero, if_neg hx, List.set, List.cons.injEq]
        exact ⟨trivial, ih xs j hj2 hz2 hmin2⟩

/-- Claim C9: registering a background child stores its pid into the
first slot holding zero among the table's 20 scanned slots; when every
scanned slot is nonzero, the registration is a silent no-op. -/
theorem registerBg_first_empty_slot (l : List Int) (p : Int) :
    ((∀ j, j < 20 → l.getD j 0 ≠ 0) → registerBg l p = l)
    ∧ (∀ j, j < 20 → l.getD j 0 = 0 → (∀ k, k < j → l.getD k 0 ≠ 0) →
        registerBg l p = l.set j p) :=
  ⟨fun h => placeFirstZero_full 20 l p h,
   fun j hj hz hmin => placeFirstZero_insert 20 l p j hj hz hmin⟩

theorem registerBg_first_empty_slot_witness :
    registerBg (List.replicate 20 1) 7 = List.replicate 20 1
    ∧ registerBg [3, 0, 5] 7 = ([3, 0, 5] : List Int).set 1 7 :=
  ⟨(registerBg_first_empty_slot (List.replicate 20 1) 7).1 (by decide),
   (registerBg_first_empty_slot [3, 0, 5] 7).2 1 (by decide) (by decide)
     (by decide)⟩

/-! ### Background reaping (checkBackground, src/main.c lines 87-113) -/

/-- Report event for one finished background child, as examined through
WIFEXITED and WIFSIGNALED. -/
inductive ReapReport where
  | done (p : Int) (w : WaitOutcome)
deriving DecidableEq

/-- Pid carried by a report event. -/
def reportPid : ReapReport → Int
  | ReapReport.done p _ => p

/-- Rendering of a report event to the printed line (lines 98 and 102). -/
def reapMsg : ReapReport → String
  | ReapReport.done p (WaitOutcome.exitedW c) =>
    "background pid " ++ toString p ++ " is done: exit value " ++ toString c
  | ReapReport.done p (WaitOutcome.signaled s) =>
    "background pid " ++ toString p ++ " is done: terminated by signal "
      ++ toString s

/-- Removal loop of checkBackground (lines 107-111): every scanned slot
equal to the reaped pid is set to zero; the loop bound is 20. -/
def removeBg : Nat → List Int → Int → List Int
  | 0, l, _ => l
  | _ + 1, [], _ => []
  | n + 1, x :: xs, p => (if x = p then 0 else x) :: removeBg n xs p

/-- One reap pass (checkBackground, lines 87-113). The reply models the
result of waitpid(-1, WNOHANG): none when it returned zero or minus one
(no terminated child collected), some pid-and-outcome when a terminated
child was collected. The pass reports the collected child and zeroes
its table slots; the guard on a positive pid mirrors line 94. -/
def checkBackground (bgPids : List Int)
    (reply : Option (Int × WaitOutcome)) : List Int × List ReapReport :=
  match reply with
  | none => (bgPids, [])
  | some (q, w) =>
    if q > 0 then (removeBg 20 bgPids q, [ReapReport.done q w])
    else (bgPids, [])

/-- A sequence of reap passes, one per read-dispatch cycle, fed by the
successive waitpid replies; returns the final table and all report
events in order. -/
def runReaps (bgPids : List Int) :
    List (Option (Int × WaitOutcome)) → List Int × List ReapReport
  | [] => (bgPids, [])
  | r :: rs =>
    let s1 := checkBackground bgPids r
    let s2 := runReaps s1.1 rs
    (s2.1, s1.2 ++ s2.2)

/-- How many replies in the sequence collected the given pid. The
operating system delivers each terminated child through waitpid at most
once, so for a single child this is at most one. -/
def repliesFor (p : Int) (rs : List (Option (Int × WaitOutcome))) : Nat :=
  rs.countP (fun r => decide (Option.map Prod.fst r = some p))

/-- How many report events concern the given pid. -/
def reportsFor (p : Int) (es : List ReapReport) : Nat :=
  es.countP (fun e => decide (reportPid e = p))

theorem checkBackground_none (l : List Int) : checkBackground l none = (l, []) :=
  rfl

theorem checkBackground_pos (l : List Int) (q : Int) (w : WaitOutcome)
    (hq : q > 0) :
    checkBackground l (some (q, w)) = (removeBg 20 l q, [ReapReport.done q w]) := by
  simp [checkBackground, hq]

theorem checkBackground_nonpos (l : List Int) (q : Int) (w : WaitOutcome)
    (hq : ¬q > 0) : checkBackground l (some (q, w)) = (l, []) := by
  simp [checkBackground, hq]

theorem reportsFor_append (p : Int) (a b : List ReapReport) :
    reportsFor p (a ++ b) = reportsFor p a + reportsFor p b := by
  simp [reportsFor, List.countP_append]

theorem reportsFor_single (p q : Int) (w : WaitOutcome) :
    reportsFor p [ReapReport.done q w] = if q = p then 1 else 0 := by
  simp [reportsFor, reportPid, List.countP_cons]

theorem repliesFor_cons (p : Int) (r : Option (Int × WaitOutcome))
    (rs : List (Option (Int × WaitOutcome))) :
    repliesFor p (r :: rs)
      = (if Option.map Prod.fst r = some p then 1 else 0) + repliesFor p rs := by
  simp only [repliesFor, List.countP_cons]
  by_cases hr : Option.map Prod.fst r = some p
  · simp [hr, Nat.add_comm]
  · simp [hr]

theorem removeBg_getD_ne (p : Int) (hp : p ≠ 0) :
    ∀ (fuel : Nat) (l : List Int) (n : Nat), n < fuel →
      (removeBg fuel l p).getD n 0 ≠ p := by
  intro fuel
  induction fuel with
  | zero => intro l n hn; exact absurd hn (Nat.not_lt_zero n)
  | succ fuel ih =>
    intro l n hn
    cases l with
    | nil =>
      simp only [removeBg, List.getD_nil]
      exact fun h => hp h.symm
    | cons x xs =>
      cases n with
      | zero =>
        by_cases hx : x = p
        · simp only [removeBg, if_pos hx, List.getD_cons_zero]
          exact fun h => hp h.symm
        · simp only [removeBg, if_neg hx, List.getD_cons_zero]
          exact hx
      | succ n =>
        simpa [removeBg] using ih xs n (Nat.lt_of_succ_lt_succ hn)

theorem removeBg_getD_or (q : Int) (fuel : Nat) (l : List Int) (n : Nat) :
    (removeBg fuel l q).getD n 0 = 0
    ∨ (removeBg fuel l q).getD n 0 = l.getD n 0 := by
  induction fuel generalizing l n with
  | zero => exact Or.inr rfl
  | succ fuel ih =>
    cases l with
    | nil => simp [removeBg]
    | cons x xs =>
      cases n with
      | zero =>
        by_cases hx : x = q
        · simp [removeBg, hx]
        · simp [removeBg, hx]
      | succ n =>
        simpa [removeBg] using ih xs n

theorem removeBg_not_mem (fuel : Nat) (l : List Int) (p : Int)
    (h : p ∉ l) : removeBg fuel l p = l := by
  induction fuel generalizing l with
  | zero => rfl
  | succ fuel ih =>
    cases l with
    | nil => rfl
    | cons x xs =>
      have hx : x ≠ p := fun hc => h (hc ▸ List.mem_cons_self x xs)
      have hxs : p ∉ xs := fun hc => h (List.mem_cons_of_mem x hc)
      simp only [removeBg, if_neg (fun hc => hx hc), List.cons.injEq]
      exact ⟨trivial, ih xs hxs⟩

theorem checkBackground_preserves (l : List Int)
    (r : Option (Int × WaitOutcome)) (p : Int) (hp : p ≠ 0)
    (h : ∀ n, n < 20 → l.getD n 0 ≠ p) :
    ∀ n, n < 20 → (checkBackground l r).1.getD n 0 ≠ p := by
  intro n hn
  cases r with
  | none => exact h n hn
  | some qw =>
    obtain ⟨q, w⟩ := qw
    by_cases hq : q > 0
    · rw [checkBackground_pos l q w hq]
      rcases removeBg_getD_or q 20 l n with h0 | h0
      · rw [h0]
        exact fun hc => hp hc.symm
      · rw [h0]
        exact h n hn
    · rw [checkBackground_nonpos l q w hq]
      exact h n hn

theorem runReaps_preserves (rs : List (Option (Int × WaitOutcome)))
    (l : List Int) (p : Int) (hp : p ≠ 0)
    (h : ∀ n, n < 20 → l.getD n 0 ≠ p) :
    ∀ n, n < 20 → (runReaps l rs).1.getD n 0 ≠ p := by
  induction rs generalizing l with
  | nil => exact h
  | cons r rs ih =>
    intro n hn
    simp only [runReaps]
    exact ih (checkBackground l r).1 (checkBackground_preserves l r p hp h) n hn

theorem runReaps_count (p : Int) (hp : 0 < p)
    (rs : List (Option (Int × WaitOutcome))) (l : List Int) :
    reportsFor p (runReaps l rs).2 = repliesFor p rs := by
  induction rs generalizing l with
  | nil => simp [runReaps, reportsFor, repliesFor]
  | cons r rs ih =>
    have key : (runReaps l (r :: rs)).2
        = (checkBackground l r).2 ++ (runReaps (checkBackground l r).1 rs).2 :=
      rfl
    rw [key, reportsFor_append, ih, repliesFor_cons]
    cases r with
    | none => simp [checkBackground_none, reportsFor]
    | some qw =>
      obtain ⟨q, w⟩ := qw
      by_cases hq : q > 0
      · rw [checkBackground_pos l q w hq, reportsFor_single]
        by_cases hqp : q = p
        · simp [hqp]
        · simp [hqp]
      · have hqp : q ≠ p := fun hc => hq (hc ▸ hp)
        rw [checkBackground_nonpos l q w hq]
        simp [reportsFor, hqp]

theorem runReaps_removes (p : Int) (hp : 0 < p)
    (rs : List (Option (Int × WaitOutcome))) (l : List Int)
    (h : 0 < repliesFor p rs) :
    ∀ n, n < 20 → (runReaps l rs).1.getD n 0 ≠ p := by
  induction rs generalizing l with
  | nil => simp [repliesFor] at h
  | cons r rs ih =>
    intro n hn
    have key : (runReaps l (r :: rs)).1
        = (runReaps (checkBackground l r).1 rs).1 := rfl
    rw [key]
    by_cases hr : Option.map Prod.fst r = some p
    · cases r with
      | none => simp at hr
      | some qw =>
        obtain ⟨q, w⟩ := qw
        have hq : q = p := by simpa using hr
        subst hq
        refine runReaps_preserves rs _ q (by omega) ?_ n hn
        intro m hm
        rw [checkBackground_pos l q w hp]
        exact removeBg_getD_ne q (by omega) 20 l m hm
    · have h2 : 0 < repliesFor p rs := by
        rw [repliesFor_cons] at h
        simpa [hr] using h
      exact ih (checkBackground l r).1 h2 n hn

/-- Parent background branch of executeCommand (lines 254-267): print
the background-pid notice, register the child in the table, then call
waitpid on that specific child with WNOHANG (line 267). The parameter
tells whether the child has already terminated at that moment: if so,
this immediate non-blocking wait collects the termination — its return
value and status are discarded, nothing is reported and no table slot
is touched — and the operating system will never again deliver this
child through waitpid, so no later reply of checkBackground's
waitpid(-1, WNOHANG) can carry its pid. Returns the new table, the
printed lines, and whether the termination was consumed here. -/
def executeCommandBgParent (bgPids : List Int) (childPid : Int)
    (alreadyExited : Bool) : List Int × List String × Bool :=
  (registerBg bgPids childPid,
    ["background pid is " ++ toString childPid], alreadyExited)

/-- Claim C2 is false as stated: child pid 7, registered into slot 0 of
an empty table, terminates before the immediate waitpid at line 267,
which consumes the termination. Every subsequent reap pass then
receives no reply for pid 7 (the reply sequence of three empty passes
is the only one the operating system can produce for this child), so
zero reap passes — not exactly one — report it, and its table slot
still holds 7 instead of being set back to 0. -/
theorem bg_reaped_at_register_never_reported :
    (executeCommandBgParent (List.replicate 20 0) 7 true).1.getD 0 0 = 7
    ∧ (executeCommandBgParent (List.replicate 20 0) 7 true).2.2 = true
    ∧ reportsFor 7
        (runReaps (executeCommandBgParent (List.replicate 20 0) 7 true).1
          [none, none, none]).2 = 0
    ∧ (runReaps (executeCommandBgParent (List.replicate 20 0) 7 true).1
        [none, none, none]).1.getD 0 0 = 7 := by
  decide

/-- Claim C2 (amended): a terminated background child is reported by at
most one reap pass — over any sequence of reap passes, the number of
report events for the child equals the number of waitpid replies that
collected it, which the operating system bounds by one — and a later
pass for the same child makes no report; the pass that collects the
child leaves no slot holding its pid among the 20 scanned slots; a
pass that collects a child whose pid is not in the table leaves the
table unchanged (a no-op removal, no error). When the immediate
waitpid at registration (line 267) consumes the termination instead,
no reap pass ever reports the child and its slot is not cleared. -/
theorem reap_reports_each_child_at_most_once (l : List Int)
    (rs : List (Option (Int × WaitOutcome))) (p : Int)
    (hp : 0 < p) (hos : repliesFor p rs ≤ 1) :
    reportsFor p (runReaps l rs).2 = repliesFor p rs
    ∧ reportsFor p (runReaps l rs).2 ≤ 1
    ∧ (0 < repliesFor p rs → ∀ n, n < 20 → (runReaps l rs).1.getD n 0 ≠ p)
    ∧ (∀ w, p ∉ l → (checkBackground l (some (p, w))).1 = l) := by
  refine ⟨runReaps_count p hp rs l, ?_, ?_, ?_⟩
  · rw [runReaps_count p hp rs l]
    exact hos
  · intro h
    exact runReaps_removes p hp rs l h
  · intro w hmem
    simp only [checkBackground, if_pos hp]
    exact removeBg_not_mem 20 l p hmem

theorem reap_reports_each_child_at_most_once_witness :
    reportsFor 5 (runReaps [5, 0] [some (5, WaitOutcome.exitedW 0), none]).2 = 1 :=
  (reap_reports_each_child_at_most_once [5, 0]
      [some (5, WaitOutcome.exitedW 0), none] 5 (by decide) (by decide)).1.trans
    (by decide)

/-! ### Shell exit (exitShell, src/main.c lines 119-133) -/

/-- Kill loop of exitShell (lines 125-129): the pids signalled, in
order — the loop walks the table while the slot value is positive and
stops at the first slot that is not. -/
def killedPids : List Int → List Int
  | [] => []
  | x :: xs => if x > 0 then x :: killedPids xs else []

/-- exitShell (lines 119-133): the pids that receive the kill signal
and the interpreter's exit code (exit(0), line 132). -/
def exitShell (bgPids : List Int) : List Int × Nat :=
  (killedPids bgPids, 0)

/-- Claim C3 fails on the code: on the Job Table state with the first
slot emptied and pid 42 still tracked in the second slot — reachable by
registering two background children and reaping the first — exitShell
sends no kill signal at all, because its loop stops at the first
non-positive slot, although pid 42 is a nonzero tracked pid. The
exit-code half of the claim holds: the interpreter exits with 0. -/
theorem exitShell_stops_at_first_hole :
    (exitShell [0, 42]).1 = [] ∧ (42 : Int) ∈ ([0, 42] : List Int)
    ∧ (0 : Int) < 42 ∧ (exitShell [0, 42]).2 = 0 := by
  decide

/-- Initial Shell Status set in main (lines 493-495) before any
foreground command has run. -/
def initialStatus : ShellStatus := { text := "exit value", code := 0 }

/-- Claim C10: before any foreground command has been executed the
Shell Status holds text exit value with code 0, so a status query
issued as the first command prints the line exit value 0. -/
theorem initial_status_exit_value_zero :
    initialStatus.text = "exit value" ∧ initialStatus.code = 0
    ∧ statusLine initialStatus = "exit value 0" :=
  ⟨rfl, rfl, by decide⟩
